import Mathlib

/-!
Verification of the license-compliance auditor (cargo-lichking).

This file gives a shallow embedding of the core data model and algorithms of
the repository: the license value type and its compatibility oracle
(src/license.rs), the license-expression parser and display
(src/license.rs), the confidence scoring of candidate license texts
(src/discovery.rs), the candidate-choice logic and run diagnostics of the
bundle use case (src/bundle.rs), and the dependency resolver (src/load.rs).

Recursion through the nested `Multiple` constructor is embedded with an
explicit fuel argument so that every definition is executable and reduces
inside the kernel; a fuel-irrelevance lemma recovers the unguarded
recursion equation of the source.
-/

namespace Lichking

/-- The `License` enum of src/license.rs lines 13 to 46.  The `PathBuf`
payload of `File` is modelled as a plain string; member order of
constructors follows the source declaration order, which is also the
derived order used by the parser when sorting `Multiple` members. -/
inductive License where
  | Unlicense
  | BSD_0_Clause
  | CC0_1_0
  | MIT
  | X11
  | BSD_2_Clause
  | BSD_3_Clause
  | Apache_2_0
  | Apache_2_0_WITH_LLVM_exception
  | LGPL_2_0
  | LGPL_2_1
  | LGPL_2_1Plus
  | LGPL_3_0
  | LGPL_3_0Plus
  | MPL_1_1
  | MPL_2_0
  | GPL_2_0
  | GPL_2_0Plus
  | GPL_3_0
  | GPL_3_0Plus
  | AGPL_3_0
  | AGPL_3_0Plus
  | Zlib
  | Custom (s : String)
  | File (path : String)
  | Multiple (ls : List License)
  | Unspecified

/-- Pattern test mirroring `if let Custom(_) = *x` in the source. -/
def License.isCustom : License → Bool
  | .Custom _ => true
  | _ => false

/-- Pattern test mirroring `if let File(_) = *x` in the source. -/
def License.isFile : License → Bool
  | .File _ => true
  | _ => false

/-- Pattern test mirroring `if let Unspecified = *x` in the source. -/
def License.isUnspecified : License → Bool
  | .Unspecified => true
  | _ => false

/-- Pattern test mirroring `if let LGPL_2_0 = *x` in the source. -/
def License.isLGPL20 : License → Bool
  | .LGPL_2_0 => true
  | _ => false

/-- Pattern test for the `MIT` constructor. -/
def License.isMIT : License → Bool
  | .MIT => true
  | _ => false

/-- Pattern test for the `Multiple` constructor. -/
def License.isMultiple : License → Bool
  | .Multiple _ => true
  | _ => false

/-- The member list of a `Multiple` license, mirroring
`if let Multiple(ref licenses) = *x`. -/
def License.members? : License → Option (List License)
  | .Multiple ls => some ls
  | _ => none

/-- True on the enumerated canonical SPDX identifiers, that is on every
constructor except `Custom`, `File`, `Multiple` and `Unspecified`. -/
def License.isCanonical : License → Bool
  | .Custom _ => false
  | .File _ => false
  | .Multiple _ => false
  | .Unspecified => false
  | _ => true

/-- The `compatibility!` adjacency table of src/license.rs lines 122 to 153:
`allowRow self other` is true exactly when the row for `self` lists `other`.
The rows for `Custom`, `File` and `Multiple` and the final catch-all row all
list only `MIT`, so they are rendered together by the wildcard arm, exactly
as the macro expands them. -/
def allowRow (self other : License) : Bool :=
  match self with
  | .Unspecified =>
    match other with
    | .Unlicense | .MIT | .X11 | .BSD_2_Clause | .BSD_3_Clause => true
    | _ => false
  | .LGPL_2_0 =>
    match other with
    | .LGPL_2_0 => true
    | _ => false
  | .Unlicense =>
    match other with
    | .Unlicense | .BSD_0_Clause | .CC0_1_0 | .MIT | .X11 => true
    | _ => false
  | .BSD_0_Clause =>
    match other with
    | .Unlicense | .BSD_0_Clause | .CC0_1_0 | .MIT | .X11 => true
    | _ => false
  | .CC0_1_0 =>
    match other with
    | .Unlicense | .BSD_0_Clause | .CC0_1_0 | .MIT | .X11 => true
    | _ => false
  | .MIT =>
    match other with
    | .Unlicense | .BSD_0_Clause | .CC0_1_0 | .MIT | .X11 => true
    | _ => false
  | .X11 =>
    match other with
    | .Unlicense | .BSD_0_Clause | .CC0_1_0 | .MIT | .X11 => true
    | _ => false
  | .BSD_2_Clause =>
    match other with
    | .Unlicense | .BSD_0_Clause | .CC0_1_0 | .MIT | .X11 | .BSD_2_Clause
    | .BSD_3_Clause => true
    | _ => false
  | .BSD_3_Clause =>
    match other with
    | .Unlicense | .BSD_0_Clause | .CC0_1_0 | .MIT | .X11 | .BSD_2_Clause
    | .BSD_3_Clause => true
    | _ => false
  | .Apache_2_0 =>
    match other with
    | .Unlicense | .BSD_0_Clause | .CC0_1_0 | .MIT | .X11 | .BSD_2_Clause
    | .BSD_3_Clause | .Apache_2_0 => true
    | _ => false
  | .MPL_1_1 =>
    match other with
    | .Unlicense | .BSD_0_Clause | .CC0_1_0 | .MIT | .X11 | .BSD_2_Clause
    | .BSD_3_Clause | .MPL_1_1 => true
    | _ => false
  | .MPL_2_0 =>
    match other with
    | .Unlicense | .BSD_0_Clause | .CC0_1_0 | .MIT | .X11 | .BSD_2_Clause
    | .BSD_3_Clause | .Apache_2_0 | .MPL_2_0 => true
    | _ => false
  | .LGPL_2_1Plus =>
    match other with
    | .Unlicense | .BSD_0_Clause | .CC0_1_0 | .MIT | .X11 | .BSD_2_Clause
    | .BSD_3_Clause | .MPL_2_0 | .LGPL_2_1Plus => true
    | _ => false
  | .LGPL_2_1 =>
    match other with
    | .Unlicense | .BSD_0_Clause | .CC0_1_0 | .MIT | .X11 | .BSD_2_Clause
    | .BSD_3_Clause | .MPL_2_0 | .LGPL_2_1Plus | .LGPL_2_1 => true
    | _ => false
  | .LGPL_3_0Plus =>
    match other with
    | .Unlicense | .BSD_0_Clause | .CC0_1_0 | .MIT | .X11 | .BSD_2_Clause
    | .BSD_3_Clause | .MPL_2_0 | .Apache_2_0 | .LGPL_2_1Plus
    | .LGPL_3_0Plus => true
    | _ => false
  | .LGPL_3_0 =>
    match other with
    | .Unlicense | .BSD_0_Clause | .CC0_1_0 | .MIT | .X11 | .BSD_2_Clause
    | .BSD_3_Clause | .MPL_2_0 | .Apache_2_0 | .LGPL_2_1Plus | .LGPL_3_0Plus
    | .LGPL_3_0 => true
    | _ => false
  | .GPL_2_0Plus =>
    match other with
    | .Unlicense | .BSD_0_Clause | .CC0_1_0 | .MIT | .X11 | .BSD_2_Clause
    | .BSD_3_Clause | .MPL_2_0 | .LGPL_2_1Plus | .LGPL_2_1
    | .GPL_2_0Plus => true
    | _ => false
  | .GPL_2_0 =>
    match other with
    | .Unlicense | .BSD_0_Clause | .CC0_1_0 | .MIT | .X11 | .BSD_2_Clause
    | .BSD_3_Clause | .MPL_2_0 | .LGPL_2_1Plus | .LGPL_2_1 | .GPL_2_0Plus
    | .GPL_2_0 => true
    | _ => false
  | .GPL_3_0Plus =>
    match other with
    | .Unlicense | .BSD_0_Clause | .CC0_1_0 | .MIT | .X11 | .BSD_2_Clause
    | .BSD_3_Clause | .MPL_2_0 | .Apache_2_0 | .LGPL_2_1Plus | .LGPL_2_1
    | .GPL_2_0Plus | .GPL_3_0Plus => true
    | _ => false
  | .GPL_3_0 =>
    match other with
    | .Unlicense | .BSD_0_Clause | .CC0_1_0 | .MIT | .X11 | .BSD_2_Clause
    | .BSD_3_Clause | .MPL_2_0 | .Apache_2_0 | .LGPL_2_1Plus | .LGPL_2_1
    | .GPL_2_0Plus | .GPL_3_0Plus | .GPL_3_0 => true
    | _ => false
  | .AGPL_3_0Plus =>
    match other with
    | .Unlicense | .BSD_0_Clause | .CC0_1_0 | .MIT | .X11 | .BSD_2_Clause
    | .BSD_3_Clause | .MPL_2_0 | .Apache_2_0 | .LGPL_2_1Plus | .LGPL_2_1
    | .GPL_2_0Plus | .GPL_3_0Plus | .GPL_3_0 | .AGPL_3_0Plus => true
    | _ => false
  | .AGPL_3_0 =>
    match other with
    | .Unlicense | .BSD_0_Clause | .CC0_1_0 | .MIT | .X11 | .BSD_2_Clause
    | .BSD_3_Clause | .MPL_2_0 | .Apache_2_0 | .LGPL_2_1Plus | .LGPL_2_1
    | .GPL_2_0Plus | .GPL_3_0Plus | .GPL_3_0 | .AGPL_3_0Plus
    | .AGPL_3_0 => true
    | _ => false
  | _ =>
    match other with
    | .MIT => true
    | _ => false

/-- The loop over the members of a `Multiple` consumer in
src/license.rs lines 88 to 99, applied to the already-computed member
results: stop with No at the first member answering No, stop with Unknown
at the first member answering Unknown, Yes when the list is exhausted. -/
def seqAnd : List (Option Bool) → Option Bool
  | [] => some true
  | some true :: rs => seqAnd rs
  | some false :: _ => some false
  | none :: _ => none

/-- The loop over the members of a `Multiple` dependency in
src/license.rs lines 101 to 113, applied to the already-computed member
results; the boolean accumulator is the `seen_none` flag of the source. -/
def seqOr (seen : Bool) (rs : List (Option Bool)) : Option Bool :=
  match rs with
  | [] => if seen then none else some false
  | some true :: _ => some true
  | some false :: rest => seqOr seen rest
  | none :: rest => seqOr true rest

/-- One unfolding of `License::can_include` (src/license.rs lines 68 to
156), with the recursive calls abstracted as `rec`.  The order of the
guards follows the source exactly: the `Unspecified` dependency test comes
first, then the `Custom` and `File` tests, then the `Multiple` consumer
loop, then the `Multiple` dependency loop, then the `LGPL_2_0` special
cases, and finally the adjacency table with its `Some(false)` default. -/
def canIncludeStep (rec : License → License → Option Bool)
    (self other : License) : Option Bool :=
  if other.isUnspecified then some false
  else if self.isCustom then none
  else if other.isCustom then none
  else if self.isFile then none
  else if other.isFile then none
  else
    match self.members? with
    | some ls => seqAnd (ls.map (fun l => rec l other))
    | none =>
      match other.members? with
      | some ls => seqOr false (ls.map (fun l => rec self l))
      | none =>
        if self.isLGPL20 then none
        else if other.isLGPL20 then none
        else if allowRow self other then some true
        else some false

/-- Fuel-indexed recursive closure of `canIncludeStep`. -/
def canIncludeF : Nat → License → License → Option Bool
  | 0, _, _ => none
  | fuel + 1, self, other => canIncludeStep (canIncludeF fuel) self other

mutual
/-- Nesting depth of `Multiple` constructors; every recursive call of
`can_include` strictly decreases the sum of the depths of its two
arguments, so this measure bounds the recursion depth. -/
def licDepth : License → Nat
  | .Multiple ls => licDepthList ls + 1
  | _ => 0
/-- Pointwise maximum of `licDepth` over a member list. -/
def licDepthList : List License → Nat
  | [] => 0
  | l :: ls => max (licDepth l) (licDepthList ls)
end

/-- `License::can_include` of src/license.rs.  The fuel
`licDepth self + licDepth other + 1` strictly dominates the recursion
depth, so the fuel case is never reached (see `canInclude_eq`). -/
def License.canInclude (self other : License) : Option Bool :=
  canIncludeF (licDepth self + licDepth other + 1) self other

theorem licDepth_mem_multiple {l : License} {ls : List License}
    (h : l ∈ ls) : licDepth l < licDepth (License.Multiple ls) := by
  have hle : licDepth l ≤ licDepthList ls := by
    induction ls with
    | nil => cases h
    | cons a as ihm =>
      rcases List.mem_cons.mp h with rfl | hmem
      · exact le_max_left _ _
      · exact le_trans (ihm hmem) (le_max_right _ _)
  calc licDepth l ≤ licDepthList ls := hle
    _ < licDepthList ls + 1 := Nat.lt_succ_self _
    _ = licDepth (License.Multiple ls) := rfl

theorem members?_eq_some {l : License} {ls : List License}
    (h : l.members? = some ls) : l = License.Multiple ls := by
  cases l with
  | Multiple ms =>
    simp only [License.members?, Option.some.injEq] at h
    rw [h]
  | _ => simp [License.members?] at h

theorem canIncludeF_irrel :
    ∀ (n f g : Nat) (s o : License), licDepth s + licDepth o ≤ n →
      n < f → n < g → canIncludeF f s o = canIncludeF g s o := by
  intro n
  induction n using Nat.strong_induction_on with
  | _ n ih =>
    intro f g s o hn hf hg
    obtain ⟨f', rfl⟩ : ∃ f', f = f' + 1 := ⟨f - 1, by omega⟩
    obtain ⟨g', rfl⟩ : ∃ g', g = g' + 1 := ⟨g - 1, by omega⟩
    show canIncludeStep (canIncludeF f') s o = canIncludeStep (canIncludeF g') s o
    unfold canIncludeStep
    rcases hs : s.members? with _ | ls
    · rcases ho : o.members? with _ | ls
      · rfl
      · have hoM := members?_eq_some ho
        subst hoM
        have hmap : (ls.map fun l => canIncludeF f' s l) =
            ls.map fun l => canIncludeF g' s l := by
          refine List.map_congr_left fun l hl => ?_
          have hlt := licDepth_mem_multiple hl
          exact ih (licDepth s + licDepth l) (by omega) f' g' s l le_rfl
            (by omega) (by omega)
        simp only [hmap]
    · have hsM := members?_eq_some hs
      subst hsM
      have hmap : (ls.map fun l => canIncludeF f' l o) =
          ls.map fun l => canIncludeF g' l o := by
        refine List.map_congr_left fun l hl => ?_
        have hlt := licDepth_mem_multiple hl
        exact ih (licDepth l + licDepth o) (by omega) f' g' l o le_rfl
          (by omega) (by omega)
      simp only [hmap]

/-- The unguarded recursion equation of `can_include`: the fuel in
`License.canInclude` is always sufficient. -/
theorem canInclude_eq (self other : License) :
    self.canInclude other = canIncludeStep License.canInclude self other := by
  show canIncludeStep (canIncludeF (licDepth self + licDepth other)) self other =
    canIncludeStep License.canInclude self other
  unfold canIncludeStep
  rcases hs : self.members? with _ | ls
  · rcases ho : other.members? with _ | ls
    · rfl
    · have hoM := members?_eq_some ho
      subst hoM
      have hmap : (ls.map fun l =>
          canIncludeF (licDepth self + licDepth (License.Multiple ls)) self l) =
          ls.map fun l => self.canInclude l := by
        refine List.map_congr_left fun l hl => ?_
        have hlt := licDepth_mem_multiple hl
        exact canIncludeF_irrel (licDepth self + licDepth l)
          _ _ self l le_rfl (by omega) (by omega)
      simp only [hmap]
  · have hsM := members?_eq_some hs
    subst hsM
    have hmap : (ls.map fun l =>
        canIncludeF (licDepth (License.Multiple ls) + licDepth other) l other) =
        ls.map fun l => l.canInclude other := by
      refine List.map_congr_left fun l hl => ?_
      have hlt := licDepth_mem_multiple hl
      exact canIncludeF_irrel (licDepth l + licDepth other)
        _ _ l other le_rfl (by omega) (by omega)
    simp only [hmap]

theorem members?_eq_none {l : License} (h : l.isMultiple = false) :
    l.members? = none := by
  cases l <;> simp_all [License.isMultiple, License.members?]

theorem isUnspecified_multiple (ls : List License) :
    (License.Multiple ls).isUnspecified = false := rfl

theorem isCustom_multiple (ls : List License) :
    (License.Multiple ls).isCustom = false := rfl

theorem isFile_multiple (ls : List License) :
    (License.Multiple ls).isFile = false := rfl

theorem members?_multiple (ls : List License) :
    (License.Multiple ls).members? = some ls := rfl

/-- C4: for every consumer license whatsoever, including `Custom`, `File`
and `Multiple` consumers, `can_include` of an `Unspecified` dependency is
No; the `Unspecified` dependency rule fires before the rules that send
`Custom` and `File` operands to Unknown. -/
theorem c4_unspecified_dependency (consumer : License) :
    consumer.canInclude .Unspecified = some false := by
  rw [canInclude_eq]
  simp [canIncludeStep, License.isUnspecified]

/-- Modelled from the wording of claim C1: order-insensitive AND
combination of the member verdicts, in which a No from any member
dominates an Unknown from any other member. -/
def claimAndCombine (rs : List (Option Bool)) : Option Bool :=
  if some false ∈ rs then some false
  else if none ∈ rs then none
  else some true

/-- C1 fails on the code: for the consumer `Multiple([LGPL-2.0, MPL-1.1])`
against the dependency `GPL-2.0`, the MPL-1.1 member answers No, yet
`can_include` answers Unknown, because the member loop stops at the first
Unknown member (here LGPL-2.0) instead of letting the later No dominate. -/
theorem c1_counterexample :
    (License.Multiple [.LGPL_2_0, .MPL_1_1]).canInclude .GPL_2_0 ≠
      claimAndCombine ([License.LGPL_2_0, .MPL_1_1].map fun l => l.canInclude .GPL_2_0) ∧
    (License.Multiple [.LGPL_2_0, .MPL_1_1]).canInclude .GPL_2_0 = none ∧
    License.LGPL_2_0.canInclude .GPL_2_0 = none ∧
    License.MPL_1_1.canInclude .GPL_2_0 = some false := by
  refine ⟨fun h => Option.noConfusion h, rfl, rfl, rfl⟩

/-- C1 (amended): for a `Multiple` consumer and a dependency that is not
`Unspecified`, `Custom` or `File`, the member loop is a left-to-right
short-circuit AND-fold: it stops with No at the first member answering No
and with Unknown at the first member answering Unknown, whichever comes
first, and answers Yes when no member stops it; in particular
`can_include(Multiple([MIT, Apache-2.0]), GPL-2.0)` is still No. -/
theorem c1_amended :
    (∀ (ms : List License) (dep : License),
      dep.isUnspecified = false → dep.isCustom = false → dep.isFile = false →
      (License.Multiple ms).canInclude dep = seqAnd (ms.map fun l => l.canInclude dep)) ∧
    (License.Multiple [.MIT, .Apache_2_0]).canInclude .GPL_2_0 = some false := by
  constructor
  · intro ms dep h1 h2 h3
    rw [canInclude_eq]
    simp only [canIncludeStep, isUnspecified_multiple, isCustom_multiple,
      isFile_multiple, members?_multiple, h1, h2, h3, Bool.false_eq_true,
      if_false]
  · rfl

theorem c1_amended_witness :
    License.isUnspecified .GPL_2_0 = false ∧
    License.isCustom .GPL_2_0 = false ∧
    License.isFile .GPL_2_0 = false ∧
    (License.Multiple [.MIT, .Apache_2_0]).canInclude .GPL_2_0 =
      seqAnd ([License.MIT, .Apache_2_0].map fun l => l.canInclude .GPL_2_0) :=
  ⟨rfl, rfl, rfl, c1_amended.1 [.MIT, .Apache_2_0] .GPL_2_0 rfl rfl rfl⟩

/-- Modelled from the wording of claim C5: OR combination of the member
verdicts: Yes if any member says Yes, else Unknown if any member says
Unknown, else No. -/
def claimOrCombine (rs : List (Option Bool)) : Option Bool :=
  if some true ∈ rs then some true
  else if none ∈ rs then none
  else some false

theorem seqOr_eq (rs : List (Option Bool)) : ∀ seen,
    seqOr seen rs = if some true ∈ rs then some true
      else if none ∈ rs ∨ seen = true then none else some false := by
  induction rs with
  | nil => intro seen; cases seen <;> simp [seqOr]
  | cons r rs ihr =>
    intro seen
    rcases r with _ | b
    · rw [show seqOr seen (none :: rs) = seqOr true rs from rfl, ihr true]
      simp
    · cases b
      · rw [show seqOr seen (some false :: rs) = seqOr seen rs from rfl, ihr seen]
        by_cases h1 : some true ∈ rs <;> by_cases h2 : (none : Option Bool) ∈ rs <;>
          simp [h1, h2]
      · rw [show seqOr seen (some true :: rs) = some true from rfl]
        simp

/-- C5: for a consumer that is not `Multiple`, `Custom` or `File`, and a
`Multiple` dependency, `can_include` is the OR-fold over the members: Yes
as soon as some member answers Yes, otherwise Unknown when some member
answered Unknown, otherwise No; in particular
`can_include(MIT, Multiple([GPL-2.0, MIT]))` is Yes. -/
theorem c5_or_fold :
    (∀ (c : License) (ms : List License),
      c.isMultiple = false → c.isCustom = false → c.isFile = false →
      c.canInclude (.Multiple ms) = claimOrCombine (ms.map fun l => c.canInclude l)) ∧
    License.MIT.canInclude (.Multiple [.GPL_2_0, .MIT]) = some true := by
  constructor
  · intro c ms h1 h2 h3
    rw [canInclude_eq]
    simp only [canIncludeStep, isUnspecified_multiple, isCustom_multiple,
      isFile_multiple, members?_multiple, h2, h3, members?_eq_none h1,
      Bool.false_eq_true, if_false]
    rw [seqOr_eq]
    simp [claimOrCombine]
  · rfl

theorem c5_or_fold_witness :
    License.isMultiple .MIT = false ∧
    License.isCustom .MIT = false ∧
    License.isFile .MIT = false ∧
    License.MIT.canInclude (.Multiple [.GPL_2_0, .MIT]) =
      claimOrCombine ([License.GPL_2_0, .MIT].map fun l => License.MIT.canInclude l) :=
  ⟨rfl, rfl, rfl, c5_or_fold.1 .MIT [.GPL_2_0, .MIT] rfl rfl rfl⟩

/-- C9: `Zlib` and `Apache-2.0 WITH LLVM-exception` have no dedicated row
in the compatibility table and fall into its catch-all arm, so with either
of them as consumer and any single canonical dependency other than
`Unspecified` and `LGPL-2.0` the answer is Yes exactly when the dependency
is `MIT`; in particular `can_include(Zlib, Zlib)` and
`can_include(MIT, Zlib)` are both No, so self-inclusion fails for them. -/
theorem c9_catch_all :
    (∀ dep : License, dep.isCanonical = true → dep.isLGPL20 = false →
      License.Zlib.canInclude dep =
        (if dep.isMIT then some true else some false) ∧
      License.Apache_2_0_WITH_LLVM_exception.canInclude dep =
        (if dep.isMIT then some true else some false)) ∧
    License.Zlib.canInclude .Zlib = some false ∧
    License.MIT.canInclude .Zlib = some false := by
  refine ⟨?_, rfl, rfl⟩
  intro dep hc hl
  cases dep <;> try exact ⟨rfl, rfl⟩
  all_goals simp [License.isCanonical, License.isLGPL20] at hc hl

theorem c9_catch_all_witness :
    License.isCanonical .GPL_3_0 = true ∧
    License.isLGPL20 .GPL_3_0 = false ∧
    (License.Zlib.canInclude .GPL_3_0 =
      (if License.isMIT .GPL_3_0 then some true else some false) ∧
     License.Apache_2_0_WITH_LLVM_exception.canInclude .GPL_3_0 =
      (if License.isMIT .GPL_3_0 then some true else some false)) :=
  ⟨rfl, rfl, c9_catch_all.1 .GPL_3_0 rfl rfl⟩

/-! ### The license-expression parser and display (src/license.rs) -/

/-- `str::trim` of the parser input: strip leading and trailing
whitespace (the source uses the Unicode notion, modelled here by
`Char.isWhitespace`). -/
def trimChars (s : List Char) : List Char :=
  ((s.dropWhile Char.isWhitespace).reverse.dropWhile Char.isWhitespace).reverse

/-- `str::contains` with a string pattern: true when `sep` occurs as a
contiguous subsequence of `s`.  The character pattern of the source,
`contains('/')`, is the instance with the one-character pattern. -/
def containsSeq (sep : List Char) : List Char → Bool
  | [] => sep.isEmpty
  | c :: rest => sep.isPrefixOf (c :: rest) || containsSeq sep rest

/-- `str::split` with pattern `sep`, scanning left to right and consuming
non-overlapping occurrences, with explicit fuel (one unit per input
character suffices, see `splitSeq`). -/
def splitF (sep : List Char) : Nat → List Char → List (List Char)
  | _, [] => [[]]
  | 0, _ :: _ => [[]]
  | fuel + 1, c :: rest =>
    if sep.isPrefixOf (c :: rest) then
      [] :: splitF sep fuel ((c :: rest).drop sep.length)
    else
      match splitF sep fuel rest with
      | [] => [[c]]
      | p :: ps => (c :: p) :: ps

/-- `str::split`: the fuel `s.length` always suffices because each step
either consumes the head character or a nonempty separator occurrence. -/
def splitSeq (sep : List Char) (s : List Char) : List (List Char) :=
  splitF sep s.length s

/-- The string pattern of the second separator in the parser. -/
def orSep : List Char := " OR ".data

/-- Variant order of the `License` constructors as declared in the source;
this is the primary key of the derived `Ord` used by `licenses.sort()`. -/
def licIdx : License → Nat
  | .Unlicense => 0
  | .BSD_0_Clause => 1
  | .CC0_1_0 => 2
  | .MIT => 3
  | .X11 => 4
  | .BSD_2_Clause => 5
  | .BSD_3_Clause => 6
  | .Apache_2_0 => 7
  | .Apache_2_0_WITH_LLVM_exception => 8
  | .LGPL_2_0 => 9
  | .LGPL_2_1 => 10
  | .LGPL_2_1Plus => 11
  | .LGPL_3_0 => 12
  | .LGPL_3_0Plus => 13
  | .MPL_1_1 => 14
  | .MPL_2_0 => 15
  | .GPL_2_0 => 16
  | .GPL_2_0Plus => 17
  | .GPL_3_0 => 18
  | .GPL_3_0Plus => 19
  | .AGPL_3_0 => 20
  | .AGPL_3_0Plus => 21
  | .Zlib => 22
  | .Custom _ => 23
  | .File _ => 24
  | .Multiple _ => 25
  | .Unspecified => 26

/-- Lexicographic comparison of lists, as the derived `Ord` of `Vec`. -/
def lexCmp (cmp : α → α → Ordering) : List α → List α → Ordering
  | [], [] => .eq
  | [], _ :: _ => .lt
  | _ :: _, [] => .gt
  | a :: as, b :: bs =>
    match cmp a b with
    | .eq => lexCmp cmp as bs
    | o => o

/-- The derived `Ord` of `License` (variant order first, then payloads),
with fuel for the recursion through `Multiple` payloads.  No claim
observes member order, so the exhaustion value is irrelevant. -/
def licCmpF : Nat → License → License → Ordering
  | 0, _, _ => .eq
  | fuel + 1, a, b =>
    match a, b with
    | .Custom s, .Custom t => compare s t
    | .File s, .File t => compare s t
    | .Multiple as, .Multiple bs => lexCmp (licCmpF fuel) as bs
    | _, _ => compare (licIdx a) (licIdx b)

/-- The `le` relation of the derived `Ord` of `License`. -/
def licLe (a b : License) : Bool :=
  match licCmpF (licDepth a + licDepth b + 1) a b with
  | .gt => false
  | _ => true

/-- `licenses.sort()` of the parser: a stable sort by the derived order. -/
def sortLics (ls : List License) : List License :=
  List.insertionSort (fun a b => licLe a b = true) ls

/-- The exact-match table of `<License as FromStr>::from_str`
(src/license.rs lines 183 to 206), one entry per string literal in source
order, aliases included. -/
def licTable : List (String × License) :=
  [("Unlicense", .Unlicense),
   ("0BSD", .BSD_0_Clause),
   ("CC0-1.0", .CC0_1_0),
   ("MIT", .MIT),
   ("X11", .X11),
   ("BSD-2-Clause", .BSD_2_Clause),
   ("BSD-3-Clause", .BSD_3_Clause),
   ("Apache-2.0", .Apache_2_0),
   ("Apache-2.0 WITH LLVM-exception", .Apache_2_0_WITH_LLVM_exception),
   ("LGPL-2.0-only", .LGPL_2_0),
   ("LGPL-2.0", .LGPL_2_0),
   ("LGPL-2.1-only", .LGPL_2_1),
   ("LGPL-2.1", .LGPL_2_1),
   ("LGPL-2.1-or-later", .LGPL_2_1Plus),
   ("LGPL-2.1+", .LGPL_2_1Plus),
   ("LGPL-3.0-only", .LGPL_3_0),
   ("LGPL-3.0", .LGPL_3_0),
   ("LGPL-3.0-or-later", .LGPL_3_0Plus),
   ("LGPL-3.0+", .LGPL_3_0Plus),
   ("MPL-1.1", .MPL_1_1),
   ("MPL-2.0", .MPL_2_0),
   ("GPL-2.0-only", .GPL_2_0),
   ("GPL-2.0", .GPL_2_0),
   ("GPL-2.0-or-later", .GPL_2_0Plus),
   ("GPL-2.0+", .GPL_2_0Plus),
   ("GPL-3.0-only", .GPL_3_0),
   ("GPL-3.0", .GPL_3_0),
   ("GPL-3.0-or-later", .GPL_3_0Plus),
   ("GPL-3.0+", .GPL_3_0Plus),
   ("AGPL-3.0-only", .AGPL_3_0),
   ("AGPL-3.0", .AGPL_3_0),
   ("AGPL-3.0-or-later", .AGPL_3_0Plus),
   ("AGPL-3.0+", .AGPL_3_0Plus),
   ("Zlib", .Zlib)]

/-- `<License as FromStr>::from_str` (src/license.rs lines 179 to 221)
with fuel for the recursive parse of the separator-delimited pieces; the
fuel case is never reached because every piece handed to the recursive
call is strictly shorter than the input. -/
def parseF : Nat → List Char → License
  | 0, s => .Custom (String.mk s)
  | fuel + 1, s =>
    let t := trimChars s
    match licTable.find? (fun e => e.1.data == t) with
    | some e => e.2
    | none =>
      if containsSeq ['/'] t || containsSeq orSep t then
        .Multiple (sortLics (((splitSeq ['/'] t).flatMap fun q => splitSeq orSep q).map
          fun p => parseF fuel p))
      else .Custom (String.mk t)

/-- Parse a license expression given as a character list. -/
def parseChars (s : List Char) : License := parseF (s.length + 1) s

/-- Parse a license expression string, as `str::parse::<License>()`. -/
def parse (s : String) : License := parseChars s.data

/-- The member loop of the `Display` implementation for `Multiple`:
render every member or fail on the first member that panics. -/
def optionMapAll (f : License → Option String) : List License → Option (List String)
  | [] => some []
  | l :: ls =>
    match f l, optionMapAll f ls with
    | some s, some rest => some (s :: rest)
    | _, _ => none

/-- `<License as fmt::Display>::fmt` (src/license.rs lines 223 to 263)
with fuel for the recursion through `Multiple` members.  The `ls[0]`
indexing of the source panics on an empty member list; a panic is
modelled as `none`. -/
def displayF : Nat → License → Option String
  | 0, _ => none
  | fuel + 1, l =>
    match l with
    | .Unlicense => some "Unlicense"
    | .BSD_0_Clause => some "0BSD"
    | .CC0_1_0 => some "CC0-1.0"
    | .MIT => some "MIT"
    | .X11 => some "X11"
    | .BSD_2_Clause => some "BSD-2-Clause"
    | .BSD_3_Clause => some "BSD-3-Clause"
    | .Apache_2_0 => some "Apache-2.0"
    | .Apache_2_0_WITH_LLVM_exception => some "Apache-2.0 WITH LLVM-exception"
    | .LGPL_2_0 => some "LGPL-2.0-only"
    | .LGPL_2_1 => some "LGPL-2.1-only"
    | .LGPL_2_1Plus => some "LGPL-2.1-or-later"
    | .LGPL_3_0 => some "LGPL-3.0-only"
    | .LGPL_3_0Plus => some "LGPL-3.0-or-later"
    | .MPL_1_1 => some "MPL-1.1"
    | .MPL_2_0 => some "MPL-2.0"
    | .GPL_2_0 => some "GPL-2.0-only"
    | .GPL_2_0Plus => some "GPL-2.0-or-later"
    | .GPL_3_0 => some "GPL-3.0-only"
    | .GPL_3_0Plus => some "GPL-3.0-or-later"
    | .AGPL_3_0 => some "AGPL-3.0-only"
    | .AGPL_3_0Plus => some "AGPL-3.0-or-later"
    | .Zlib => some "Zlib"
    | .Custom s => some s
    | .File p => some ("License specified in file (" ++ p ++ ")")
    | .Multiple ls =>
      match ls with
      | [] => none
      | _ => (optionMapAll (displayF fuel) ls).map fun parts =>
          String.intercalate " / " parts
    | .Unspecified => some "No license specified"

/-- `Display` for `License`; the fuel `licDepth l + 1` covers the nesting
depth of the value, so only a genuinely empty `Multiple` yields `none`. -/
def display (l : License) : Option String := displayF (licDepth l + 1) l

theorem one_le_splitF_length (sep : List Char) :
    ∀ (f : Nat) (s : List Char), 1 ≤ (splitF sep f s).length := by
  intro f
  induction f with
  | zero => intro s; cases s <;> simp [splitF]
  | succ f ihf =>
    intro s
    cases s with
    | nil => simp [splitF]
    | cons c rest =>
      rw [splitF]
      by_cases h : sep.isPrefixOf (c :: rest) = true
      · simp [h]
      · simp only [h, if_false, Bool.false_eq_true]
        rcases hs : splitF sep f rest with _ | ⟨p, ps⟩ <;> simp

theorem two_le_splitF_length (sep : List Char) (hsep : sep ≠ []) :
    ∀ (f : Nat) (s : List Char), s.length ≤ f → containsSeq sep s = true →
      2 ≤ (splitF sep f s).length := by
  intro f
  induction f with
  | zero =>
    intro s hlen hcon
    have hs : s = [] := List.eq_nil_of_length_eq_zero (by omega)
    subst hs
    rcases sep with _ | ⟨a, as⟩
    · exact absurd rfl hsep
    · simp [containsSeq] at hcon
  | succ f ihf =>
    intro s hlen hcon
    cases s with
    | nil =>
      rcases sep with _ | ⟨a, as⟩
      · exact absurd rfl hsep
      · simp [containsSeq] at hcon
    | cons c rest =>
      rw [splitF]
      by_cases hp : sep.isPrefixOf (c :: rest) = true
      · simp only [hp, if_true, List.length_cons]
        have := one_le_splitF_length sep f ((c :: rest).drop sep.length)
        omega
      · have hcr : containsSeq sep rest = true := by
          simp only [containsSeq, hp, Bool.false_or] at hcon
          exact hcon
        have h2 := ihf rest (by simp at hlen; omega) hcr
        simp only [hp, if_false, Bool.false_eq_true]
        rcases hsq : splitF sep f rest with _ | ⟨p, ps⟩
        · rw [hsq] at h2; simp at h2
        · rw [hsq] at h2
          simp only [List.length_cons] at h2 ⊢
          omega

theorem splitF_eq_single (sep : List Char) :
    ∀ (f : Nat) (s : List Char), s.length ≤ f → containsSeq sep s = false →
      splitF sep f s = [s] := by
  intro f
  induction f with
  | zero =>
    intro s hlen _
    have hs : s = [] := List.eq_nil_of_length_eq_zero (by omega)
    subst hs
    rfl
  | succ f ihf =>
    intro s hlen hcon
    cases s with
    | nil => rfl
    | cons c rest =>
      have hp : sep.isPrefixOf (c :: rest) = false := by
        rcases hb : sep.isPrefixOf (c :: rest) with _ | _
        · rfl
        · simp [containsSeq, hb] at hcon
      have hcr : containsSeq sep rest = false := by
        simp only [containsSeq, hp, Bool.false_or] at hcon
        exact hcon
      rw [splitF]
      simp only [hp, if_false, Bool.false_eq_true]
      rw [ihf rest (by simp at hlen; omega) hcr]

theorem le_length_flatMap (l : List α) (g : α → List β)
    (h : ∀ x ∈ l, 1 ≤ (g x).length) : l.length ≤ (l.flatMap g).length := by
  induction l with
  | nil => simp
  | cons a l ihl =>
    simp only [List.flatMap_cons, List.length_append, List.length_cons]
    have h1 := h a (List.mem_cons_self a l)
    have h2 := ihl fun x hx => h x (List.mem_cons_of_mem a hx)
    omega

theorem two_le_pieces (t : List Char)
    (h : (containsSeq ['/'] t || containsSeq orSep t) = true) :
    2 ≤ ((splitSeq ['/'] t).flatMap fun q => splitSeq orSep q).length := by
  have hall : ∀ q ∈ splitSeq ['/'] t, 1 ≤ (splitSeq orSep q).length :=
    fun q _ => one_le_splitF_length orSep _ q
  have hbound : (splitSeq ['/'] t).length ≤
      ((splitSeq ['/'] t).flatMap fun q => splitSeq orSep q).length :=
    le_length_flatMap (splitSeq ['/'] t) _ hall
  by_cases h1 : containsSeq ['/'] t = true
  · have h2 : 2 ≤ (splitSeq ['/'] t).length :=
      two_le_splitF_length ['/'] (by simp) t.length t le_rfl h1
    omega
  · have h1f : containsSeq ['/'] t = false := by
      revert h1; cases containsSeq ['/'] t <;> simp
    have h2 : containsSeq orSep t = true := by
      rw [h1f, Bool.false_or] at h
      exact h
    rw [show splitSeq ['/'] t = [t] from
      splitF_eq_single _ _ _ le_rfl h1f]
    simp only [List.flatMap_cons, List.flatMap_nil, List.append_nil]
    exact two_le_splitF_length orSep (by decide) t.length t le_rfl h2

theorem licTable_canonical : ∀ e ∈ licTable, e.2.isCanonical = true := by decide

theorem displayF_canonical {l : License} (h : l.isCanonical = true) (g : Nat) :
    (displayF (g + 1) l).isSome = true := by
  cases l <;> first | rfl | simp [License.isCanonical] at h

theorem optionMapAll_isSome (f : License → Option String) (ls : List License)
    (h : ∀ l ∈ ls, (f l).isSome = true) : (optionMapAll f ls).isSome = true := by
  induction ls with
  | nil => rfl
  | cons l ls ihl =>
    have h1 := h l (List.mem_cons_self l ls)
    have h2 := ihl fun x hx => h x (List.mem_cons_of_mem l hx)
    rw [optionMapAll]
    rcases hf : f l with _ | s
    · rw [hf] at h1; simp at h1
    · rcases ho : optionMapAll f ls with _ | rest
      · rw [ho] at h2; simp at h2
      · simp

theorem sortLics_perm (ls : List License) : List.Perm (sortLics ls) ls :=
  List.perm_insertionSort _ ls

theorem displayF_parseF (f : Nat) : ∀ (s : List Char) (g : Nat),
    licDepth (parseF f s) < g → (displayF g (parseF f s)).isSome = true := by
  induction f with
  | zero =>
    intro s g hg
    obtain ⟨g', rfl⟩ : ∃ g', g = g' + 1 := ⟨g - 1, by omega⟩
    rfl
  | succ f ihf =>
    intro s g hg
    obtain ⟨g', rfl⟩ : ∃ g', g = g' + 1 := ⟨g - 1, by omega⟩
    rcases he : licTable.find? (fun e => e.1.data == trimChars s) with _ | e
    · by_cases hc : (containsSeq ['/'] (trimChars s) ||
          containsSeq orSep (trimChars s)) = true
      · have hp : parseF (f + 1) s = .Multiple (sortLics
            (((splitSeq ['/'] (trimChars s)).flatMap fun q =>
              splitSeq orSep q).map fun p => parseF f p)) := by
          simp [parseF, he, hc]
        rw [hp] at hg ⊢
        rcases hm : sortLics (((splitSeq ['/'] (trimChars s)).flatMap fun q =>
            splitSeq orSep q).map fun p => parseF f p) with _ | ⟨m0, mrest⟩
        · have hlen := (sortLics_perm (((splitSeq ['/'] (trimChars s)).flatMap
            fun q => splitSeq orSep q).map fun p => parseF f p)).length_eq
          rw [hm, List.length_map] at hlen
          have h2 := two_le_pieces (trimChars s) hc
          simp only [List.length_nil] at hlen
          omega
        · show ((optionMapAll (displayF g') (m0 :: mrest)).map fun parts =>
            String.intercalate " / " parts).isSome = true
          have hall2 : ∀ l ∈ m0 :: mrest, (displayF g' l).isSome = true := by
            intro l hl
            rw [← hm] at hl
            have hdep := licDepth_mem_multiple hl
            obtain ⟨p, _, rfl⟩ := List.mem_map.mp ((sortLics_perm _).mem_iff.mp hl)
            exact ihf p g' (by omega)
          have hsome := optionMapAll_isSome _ _ hall2
          rcases ho : optionMapAll (displayF g') (m0 :: mrest) with _ | parts
          · rw [ho] at hsome; simp at hsome
          · rfl
      · have hp : parseF (f + 1) s = .Custom (String.mk (trimChars s)) := by
          simp [parseF, he, hc]
        rw [hp]
        rfl
    · have hmem : e ∈ licTable := List.mem_of_find?_eq_some he
      have hcan := licTable_canonical e hmem
      have hp : parseF (f + 1) s = e.2 := by simp [parseF, he]
      rw [hp]
      exact displayF_canonical hcan g'

/-- C10: displaying a `Multiple` license reads its first member, so
display is undefined (a panic, modelled as `none`) exactly on an empty
member list; every `Multiple` produced by the parser has at least two
members, one per separator-delimited piece, so displaying any parser
output never panics. -/
theorem c10_multiple_display :
    display (.Multiple []) = none ∧
    (∀ (s : String) (ls : List License), parse s = .Multiple ls → 2 ≤ ls.length) ∧
    (∀ s : String, (display (parse s)).isSome = true) := by
  refine ⟨rfl, ?_, ?_⟩
  · intro s ls h
    rw [show parse s = parseF (s.data.length + 1) s.data from rfl] at h
    rcases he : licTable.find? (fun e => e.1.data == trimChars s.data) with _ | e
    · by_cases hc : (containsSeq ['/'] (trimChars s.data) ||
          containsSeq orSep (trimChars s.data)) = true
      · have hp : parseF (s.data.length + 1) s.data = .Multiple (sortLics
            (((splitSeq ['/'] (trimChars s.data)).flatMap fun q =>
              splitSeq orSep q).map fun p => parseF s.data.length p)) := by
          simp [parseF, he, hc]
        rw [hp] at h
        injection h with h
        have hlen := (sortLics_perm (((splitSeq ['/'] (trimChars s.data)).flatMap
          fun q => splitSeq orSep q).map fun p => parseF s.data.length p)).length_eq
        rw [h, List.length_map] at hlen
        have h2 := two_le_pieces (trimChars s.data) hc
        omega
      · have hp : parseF (s.data.length + 1) s.data =
            .Custom (String.mk (trimChars s.data)) := by
          simp [parseF, he, hc]
        rw [hp] at h
        exact License.noConfusion h
    · have hp : parseF (s.data.length + 1) s.data = e.2 := by simp [parseF, he]
      rw [hp] at h
      have hcan := licTable_canonical e (List.mem_of_find?_eq_some he)
      rw [h] at hcan
      simp [License.isCanonical] at hcan
  · intro s
    exact displayF_parseF (s.data.length + 1) s.data _ (Nat.lt_succ_self _)

theorem c10_multiple_display_witness :
    parse "MIT/Apache-2.0" = .Multiple [.MIT, .Apache_2_0] ∧
    2 ≤ ([License.MIT, .Apache_2_0] : List License).length :=
  ⟨rfl, c10_multiple_display.2.1 "MIT/Apache-2.0" [.MIT, .Apache_2_0] rfl⟩

/-- C8: for every enumerated canonical identifier, parsing its display
string yields the identifier back, so display, parse, display round-trips
to the same display string. -/
theorem c8_roundtrip (id : License) (h : id.isCanonical = true) :
    (display id).isSome = true ∧
    display (parse ((display id).getD "")) = display id := by
  cases id <;> first | exact ⟨rfl, rfl⟩ | simp [License.isCanonical] at h

theorem c8_roundtrip_witness :
    License.isCanonical .LGPL_2_0 = true ∧
    ((display License.LGPL_2_0).isSome = true ∧
     display (parse ((display License.LGPL_2_0).getD "")) = display License.LGPL_2_0) :=
  ⟨rfl, c8_roundtrip .LGPL_2_0 rfl⟩

/-- C3 fails on the code for the empty input: from_str has no arm for the
empty string, so the trailing catch-all produces Custom with the empty
string, not Unspecified. -/
theorem c3_counterexample :
    parse "" = .Custom "" ∧ parse "" ≠ .Unspecified :=
  ⟨rfl, fun h => License.noConfusion h⟩

/-- C3 (amended): after trimming, an empty input yields Custom holding the
empty string, exactly like any other unmatched separator-free input; any
non-empty trimmed input that matches no canonical identifier or alias and
contains neither a slash nor the OR separator yields Custom holding the
input verbatim. -/
theorem c3_amended :
    parse "" = .Custom "" ∧
    (∀ s : String, trimChars s.data = s.data → s ≠ "" →
      (∀ e ∈ licTable, s ≠ e.1) →
      containsSeq ['/'] s.data = false → containsSeq orSep s.data = false →
      parse s = .Custom s) := by
  refine ⟨rfl, ?_⟩
  intro s ht _ hnm h1 h2
  have hfind : licTable.find? (fun e => e.1.data == trimChars s.data) = none := by
    rw [List.find?_eq_none]
    intro e he
    simp only [ht, beq_iff_eq]
    intro hb
    exact hnm e he (String.ext hb).symm
  rw [ht] at hfind
  show parseF (s.data.length + 1) s.data = .Custom s
  simp [parseF, hfind, ht, h1, h2]

theorem c3_amended_witness :
    trimChars "Foo".data = "Foo".data ∧
    "Foo" ≠ "" ∧
    (∀ e ∈ licTable, "Foo" ≠ e.1) ∧
    containsSeq ['/'] "Foo".data = false ∧
    containsSeq orSep "Foo".data = false ∧
    parse "Foo" = .Custom "Foo" :=
  ⟨rfl, by decide, by decide, rfl, rfl,
   c3_amended.2 "Foo" rfl (by decide) (by decide) rfl rfl⟩

/-! ### Confidence scoring of candidate license texts (src/discovery.rs) -/

/-- The `Confidence` enum of src/discovery.rs lines 14 to 20. -/
inductive Confidence where
  | Confident
  | SemiConfident
  | Unsure
  | NoTemplate
  deriving DecidableEq

/-- `compare` of src/discovery.rs lines 43 to 57, applied to the word
lists whose count functions are the two frequency maps: the sum over the
distinct template words of the absolute difference of the counts (a word
absent from the candidate contributes its full template count), plus the
counts of the candidate words that do not occur in the template (the
entries left in `text_freq` after all template keys were removed). -/
def compareErrors (textWs tmplWs : List String) : Nat :=
  (tmplWs.dedup.map fun w =>
    ((textWs.count w : Int) - (tmplWs.count w : Int)).natAbs).sum +
  ((textWs.dedup.filter fun w => decide (w ∉ tmplWs)).map fun w =>
    textWs.count w).sum

/-- The score of src/discovery.rs line 80: errors divided by the total
template word count (the sum of all template frequencies, which is the
length of the template word list).  The `f32` division of the source is
modelled by exact rational arithmetic. -/
def score (textWs tmplWs : List String) : ℚ :=
  (compareErrors textWs tmplWs : ℚ) / (tmplWs.length : ℚ)

/-- The threshold mapping of `check_against_template`
(src/discovery.rs lines 82 to 88) with `HIGH_CONFIDENCE_LIMIT = 0.10` and
`LOW_CONFIDENCE_LIMIT = 0.15`; the tokenization into case-insensitive
word-frequency maps is abstracted by taking the two token lists as
inputs, and the branch for a license without a template (which returns
`NoTemplate` before any scoring) is outside this entry point. -/
def checkAgainstTemplate (textWs tmplWs : List String) : Confidence :=
  if score textWs tmplWs < 1/10 then .Confident
  else if score textWs tmplWs < 3/20 then .SemiConfident
  else .Unsure

/-- C7: confidence scoring divides the error count by the template word
count and maps score below 0.10 to Confident, score in [0.10, 0.15) to
SemiConfident and score at least 0.15 to Unsure; a candidate identical to
the template scores 0 and is Confident, and a candidate sharing no words
with the template scores at least 1 and is Unsure. -/
theorem c7_confidence_scoring :
    (∀ textWs tmplWs : List String, 1 ≤ tmplWs.length →
      ((checkAgainstTemplate textWs tmplWs = .Confident ↔
          score textWs tmplWs < 1/10) ∧
       (checkAgainstTemplate textWs tmplWs = .SemiConfident ↔
          1/10 ≤ score textWs tmplWs ∧ score textWs tmplWs < 3/20) ∧
       (checkAgainstTemplate textWs tmplWs = .Unsure ↔
          3/20 ≤ score textWs tmplWs))) ∧
    (∀ ws : List String, 1 ≤ ws.length →
      score ws ws = 0 ∧ checkAgainstTemplate ws ws = .Confident) ∧
    (∀ textWs tmplWs : List String, 1 ≤ tmplWs.length →
      (∀ w ∈ textWs, w ∉ tmplWs) →
      1 ≤ score textWs tmplWs ∧ checkAgainstTemplate textWs tmplWs = .Unsure) := by
  refine ⟨?_, ?_, ?_⟩
  · intro textWs tmplWs _
    unfold checkAgainstTemplate
    split_ifs with h1 h2
    · exact ⟨⟨fun _ => h1, fun _ => rfl⟩,
        ⟨fun h => absurd h (by decide), fun h => absurd h1 (by linarith [h.1])⟩,
        ⟨fun h => absurd h (by decide), fun h => absurd h1 (by linarith)⟩⟩
    · exact ⟨⟨fun h => absurd h (by decide), fun hlt => absurd hlt h1⟩,
        ⟨fun _ => ⟨le_of_not_lt h1, h2⟩, fun _ => rfl⟩,
        ⟨fun h => absurd h (by decide), fun hge => absurd h2 (by linarith)⟩⟩
    · exact ⟨⟨fun h => absurd h (by decide), fun hlt => absurd hlt h1⟩,
        ⟨fun h => absurd h (by decide), fun hc => absurd hc.2 h2⟩,
        ⟨fun _ => le_of_not_lt h2, fun _ => rfl⟩⟩
  · intro ws hlen
    have herr : compareErrors ws ws = 0 := by
      unfold compareErrors
      have h1 : (ws.dedup.map fun w =>
          ((ws.count w : Int) - (ws.count w : Int)).natAbs).sum = 0 := by
        apply List.sum_eq_zero
        intro x hx
        obtain ⟨w, _, rfl⟩ := List.mem_map.mp hx
        simp
      have h2 : (ws.dedup.filter fun w => decide (w ∉ ws)) = [] := by
        rw [List.filter_eq_nil_iff]
        intro w hw
        simp [List.mem_dedup.mp hw]
      rw [h1, h2]
      simp
    have hs : score ws ws = 0 := by
      unfold score
      rw [herr]
      simp
    refine ⟨hs, ?_⟩
    unfold checkAgainstTemplate
    rw [hs]
    norm_num
  · intro textWs tmplWs hlen hdisj
    have hcount : ∀ w ∈ tmplWs.dedup, textWs.count w = 0 := by
      intro w hw
      rw [List.count_eq_zero]
      intro hwt
      exact hdisj w hwt (List.mem_dedup.mp hw)
    have hfirst : (tmplWs.dedup.map fun w =>
        ((textWs.count w : Int) - (tmplWs.count w : Int)).natAbs).sum =
        tmplWs.length := by
      rw [show (tmplWs.dedup.map fun w =>
          ((textWs.count w : Int) - (tmplWs.count w : Int)).natAbs) =
          tmplWs.dedup.map fun w => tmplWs.count w from
        List.map_congr_left fun w hw => by rw [hcount w hw]; simp]
      exact List.sum_map_count_dedup_eq_length tmplWs
    have herr : tmplWs.length ≤ compareErrors textWs tmplWs := by
      unfold compareErrors
      rw [hfirst]
      omega
    have hpos : (0 : ℚ) < (tmplWs.length : ℚ) := by
      have : (0 : ℚ) < (1 : ℚ) := one_pos
      calc (0 : ℚ) < 1 := one_pos
        _ ≤ (tmplWs.length : ℚ) := by exact_mod_cast hlen
    have hone : 1 ≤ score textWs tmplWs := by
      unfold score
      rw [one_le_div hpos]
      exact_mod_cast herr
    refine ⟨hone, ?_⟩
    unfold checkAgainstTemplate
    split_ifs with h1 h2
    · linarith
    · linarith
    · rfl

theorem c7_confidence_scoring_witness :
    (1 ≤ (["mit"] : List String).length ∧
      score ["mit"] ["mit"] = 0 ∧
      checkAgainstTemplate ["mit"] ["mit"] = .Confident) ∧
    (1 ≤ (["mit"] : List String).length ∧
      (∀ w ∈ (["foo"] : List String), w ∉ (["mit"] : List String)) ∧
      1 ≤ score ["foo"] ["mit"] ∧
      checkAgainstTemplate ["foo"] ["mit"] = .Unsure) :=
  ⟨⟨by decide, c7_confidence_scoring.2.1 ["mit"] (by decide)⟩,
   ⟨by decide, by decide,
    c7_confidence_scoring.2.2 ["foo"] ["mit"] (by decide) (by decide)⟩⟩

/-! ### Candidate choice and run diagnostics of the bundle use case
(src/bundle.rs) -/

/-- `LicenseText` of src/discovery.rs lines 22 to 27; the path and the
raw text are carried along, only the confidence drives the choice. -/
structure LicenseText where
  path : String
  text : String
  confidence : Confidence
  deriving DecidableEq

/-- `LicenseInfo` of src/bundle.rs lines 33 to 47. -/
inductive LicenseInfo where
  | MultiplePossibleLicenseFiles
  | MissingLicenseFile
  | Confident
  | SemiConfident
  | Unsure
  | NoTemplate
  | UnspecifiedLicenseInPackage
  deriving DecidableEq

/-- `BestChoice` of src/bundle.rs lines 358 to 362. -/
inductive BestChoice where
  | single (t : LicenseText)
  | multiple (ts : List LicenseText)
  | none
  deriving DecidableEq

/-- `choose` of src/bundle.rs lines 371 to 421: partition the candidates
into the four confidence tiers (order preserved) and pick the highest
non-empty tier; a singleton tier is a `single`, a larger tier a
`multiple`, and four empty tiers give `none` with a missing-license
info.  The `package` and `license` parameters of the source are unused in
its body and are omitted. -/
def choose (texts : List LicenseText) : BestChoice × LicenseInfo :=
  let part1 := texts.partition fun t => t.confidence == Confidence.Confident
  let confident := part1.1
  let part2 := part1.2.partition fun t => t.confidence == Confidence.SemiConfident
  let semiConfident := part2.1
  let part3 := part2.2.partition fun t => t.confidence == Confidence.Unsure
  let unsure := part3.1
  let noTemplate := part3.2
  match confident with
  | [t] => (.single t, .Confident)
  | a :: b :: rest => (.multiple (a :: b :: rest), .Confident)
  | [] =>
    match semiConfident with
    | [t] => (.single t, .SemiConfident)
    | a :: b :: rest => (.multiple (a :: b :: rest), .SemiConfident)
    | [] =>
      match unsure with
      | [t] => (.single t, .Unsure)
      | a :: b :: rest => (.multiple (a :: b :: rest), .Unsure)
      | [] =>
        match noTemplate with
        | [t] => (.single t, .NoTemplate)
        | a :: b :: rest => (.multiple (a :: b :: rest), .NoTemplate)
        | [] => (.none, .MissingLicenseFile)

/-- The run-level diagnostic flags of `Context` (src/bundle.rs lines 50
to 58). -/
structure Context where
  missing_license : Bool
  low_quality_license : Bool

/-- The diagnostics-and-exit skeleton of `bundle::run` (src/bundle.rs
lines 135 to 251): the context is created with both flags false (lines
159 to 166); the per-package work (line 168 via `get_lich`, lines 329 to
351) calls `choose` for the candidate texts of each package license but
receives no reference to the context, which is never written afterwards;
the run returns an error exactly when one of the flags is set (lines 246
to 250).  Filesystem discovery is abstracted: each package is
represented by the candidate-text list found for its license. -/
def bundleRun (packages : List (List LicenseText)) : Except String Unit :=
  let context : Context := { missing_license := false, low_quality_license := false }
  let _liches := packages.map fun texts => choose texts
  if context.missing_license || context.low_quality_license then
    .error "Generating bundle finished with error(s)"
  else
    .ok ()

/-- C2 describes the intended behavior, but the code never wires it up:
with zero candidates in all four tiers, `choose` does choose no text and
reports a missing license file, yet `bundle::run` creates its context
with `missing_license = false` and no code path ever sets the flag (the
old implementation that did so is commented out), so the run returns Ok
for every input instead of finishing with an error. -/
theorem c2_missing_license_flag_dead :
    choose [] = (BestChoice.none, LicenseInfo.MissingLicenseFile) ∧
    (∀ packages : List (List LicenseText), bundleRun packages = .ok ()) ∧
    bundleRun [[]] = .ok () :=
  ⟨rfl, fun _ => rfl, rfl⟩

/-! ### The dependency resolver (src/load.rs and src/query.rs) -/

/-- A package of the metadata; only the id drives the resolver, so the
other fields are omitted. -/
structure Package where
  id : Nat
  deriving DecidableEq

/-- `cargo_metadata::DependencyKind`. -/
inductive DepKind where
  | Normal
  | Development
  | Build
  deriving DecidableEq

/-- One resolved dependency edge: target package id plus the kinds under
which the dependency is declared. -/
structure NodeDep where
  pkg : Nat
  dep_kinds : List DepKind
  deriving DecidableEq

/-- One node of the resolve graph: a package id and its outgoing edges. -/
structure ResolveNode where
  id : Nat
  deps : List NodeDep
  deriving DecidableEq

/-- The metadata consumed by `resolve_packages`: the package list and the
nodes of the resolve graph. -/
structure Metadata where
  packages : List Package
  nodes : List ResolveNode
  deriving DecidableEq

/-- `PackagesExt::by_id` of src/query.rs: first package with the id;
the `Err` of the source is modelled as `none`. -/
def packagesById (ps : List Package) (id : Nat) : Option Package :=
  ps.find? fun p => p.id == id

/-- `ResolveExt::by_id` of src/query.rs: the dependency list of the first
node with the id; the `Err` of the source is modelled as `none`. -/
def resolveById (ns : List ResolveNode) (id : Nat) : Option (List NodeDep) :=
  (ns.find? fun n => n.id == id).map ResolveNode.deps

/-- The push condition of src/load.rs lines 102 to 110: the targets of
the edges that carry at least one `Normal` kind. -/
def normalTargets (deps : List NodeDep) : List Nat :=
  (deps.filter fun d => d.dep_kinds.contains DepKind.Normal).map NodeDep.pkg

/-- Total number of edges in the resolve graph (used only to bound the
iteration count of the worklist loop). -/
def totalDeps (meta : Metadata) : Nat :=
  (meta.nodes.map fun n => n.deps.length).sum

/-- The node ids not yet visited (used only in the termination measure). -/
def missingIds (meta : Metadata) (added : List Nat) : List Nat :=
  (meta.nodes.map ResolveNode.id).dedup.filter fun i => decide (i ∉ added)

/-- Termination measure of the worklist loop: pending worklist entries
plus a weighted count of unvisited node ids; every iteration strictly
decreases it. -/
def loopMeasure (meta : Metadata) (toCheck added : List Nat) : Nat :=
  toCheck.length + (totalDeps meta + 1) * (missingIds meta added).length

/-- The `while let Some(id) = to_check.pop()` loop of `resolve_packages`
(src/load.rs lines 98 to 112), with the worklist as a head-first stack
and explicit fuel (`resolveFuel` below always suffices): an id already in
`added` is skipped; a fresh id is looked up in the package list and in
the resolve graph (a failed lookup aborts the whole resolution), its
package is appended to the result, and the targets of its edges with at
least one `Normal` kind are pushed. -/
def resolveLoop (meta : Metadata) :
    Nat → List Nat → List Nat → List Package → Option (List Package)
  | 0, _, _, _ => none
  | fuel + 1, toCheck, added, result =>
    match toCheck with
    | [] => some result.reverse
    | id :: rest =>
      if id ∈ added then resolveLoop meta fuel rest added result
      else
        match packagesById meta.packages id, resolveById meta.nodes id with
        | some pkg, some deps =>
          resolveLoop meta fuel (normalTargets deps ++ rest) (id :: added)
            (pkg :: result)
        | _, _ => none

/-- A fuel bound dominating `loopMeasure` for the initial state. -/
def resolveFuel (meta : Metadata) (rootIds : List Nat) : Nat :=
  rootIds.length + (totalDeps meta + 1) * (meta.nodes.length + 1)

/-- `resolve_packages` of src/load.rs lines 83 to 115. -/
def resolve_packages (meta : Metadata) (roots : List Package) :
    Option (List Package) :=
  resolveLoop meta (resolveFuel meta (roots.map Package.id))
    (roots.map Package.id) [] []

/-- Reachability over the resolve graph following only edges with at
least one `Normal` kind, starting from the root ids. -/
inductive ReachableN (meta : Metadata) (rootIds : List Nat) : Nat → Prop where
  | root {id : Nat} : id ∈ rootIds → ReachableN meta rootIds id
  | step {id : Nat} {deps : List NodeDep} {t : Nat} :
      ReachableN meta rootIds id →
      resolveById meta.nodes id = some deps →
      t ∈ normalTargets deps →
      ReachableN meta rootIds t

/-- Well-formed metadata for a root set: every root id and every target
of a `Normal` edge resolves both in the package list and in the resolve
graph (otherwise the source aborts with an error). -/
def WfMeta (meta : Metadata) (rootIds : List Nat) : Prop :=
  (∀ id ∈ rootIds, (packagesById meta.packages id).isSome = true ∧
    (resolveById meta.nodes id).isSome = true) ∧
  (∀ n ∈ meta.nodes, ∀ t ∈ normalTargets n.deps,
    (packagesById meta.packages t).isSome = true ∧
    (resolveById meta.nodes t).isSome = true)

instance wfMetaDecidable (meta : Metadata) (rootIds : List Nat) :
    Decidable (WfMeta meta rootIds) := by
  unfold WfMeta
  exact inferInstance

theorem packagesById_id {ps : List Package} {id : Nat} {p : Package}
    (h : packagesById ps id = some p) : p.id = id := by
  unfold packagesById at h
  have hp := List.find?_some h
  exact beq_iff_eq.mp hp

theorem packagesById_self {ps : List Package} {id : Nat} {p : Package}
    (h : packagesById ps id = some p) : packagesById ps p.id = some p := by
  rw [packagesById_id h]
  exact h

theorem resolveById_node {ns : List ResolveNode} {id : Nat} {deps : List NodeDep}
    (h : resolveById ns id = some deps) :
    ∃ n ∈ ns, n.deps = deps ∧ n.id = id := by
  unfold resolveById at h
  rcases hf : ns.find? (fun n => n.id == id) with _ | n
  · rw [hf] at h
    exact Option.noConfusion h
  · rw [hf] at h
    have hd : n.deps = deps := Option.some.inj h
    have hpred := List.find?_some hf
    exact ⟨n, List.mem_of_find?_eq_some hf, hd, beq_iff_eq.mp hpred⟩

theorem reachable_resolvable {meta : Metadata} {rootIds : List Nat}
    (hwf : WfMeta meta rootIds) {id : Nat} (hr : ReachableN meta rootIds id) :
    (packagesById meta.packages id).isSome = true ∧
    (resolveById meta.nodes id).isSome = true := by
  induction hr with
  | root h => exact hwf.1 _ h
  | step _ hres ht _ =>
    obtain ⟨n, hn, hdeps, _⟩ := resolveById_node hres
    exact hwf.2 n hn _ (by rw [hdeps]; exact ht)

theorem le_listSum {l : List Nat} {a : Nat} (h : a ∈ l) : a ≤ l.sum := by
  induction l with
  | nil => cases h
  | cons b bs ih =>
    rw [List.sum_cons]
    rcases List.mem_cons.mp h with rfl | h2
    · omega
    · have := ih h2
      omega

theorem normalTargets_le_totalDeps {meta : Metadata} {id : Nat}
    {deps : List NodeDep} (h : resolveById meta.nodes id = some deps) :
    (normalTargets deps).length ≤ totalDeps meta := by
  obtain ⟨n, hn, hdeps, _⟩ := resolveById_node h
  have h1 : (normalTargets deps).length ≤ deps.length := by
    unfold normalTargets
    rw [List.length_map]
    exact List.length_filter_le _ _
  have h2 : deps.length ≤ totalDeps meta := by
    unfold totalDeps
    apply le_listSum
    rw [← hdeps]
    exact List.mem_map_of_mem _ hn
  omega

theorem filter_ne_length {l : List Nat} (hn : l.Nodup) {a : Nat} (ha : a ∈ l) :
    (l.filter fun i => decide (i ≠ a)).length + 1 = l.length := by
  induction l with
  | nil => cases ha
  | cons b bs ih =>
    by_cases hab : b = a
    · subst hab
      have hb : bs.filter (fun i => decide (i ≠ b)) = bs := by
        apply List.filter_eq_self.mpr
        intro x hx
        simp only [decide_eq_true_eq]
        exact fun he => (List.nodup_cons.mp hn).1 (he ▸ hx)
      rw [List.filter_cons, if_neg (by simp), hb, List.length_cons]
    · have ha' : a ∈ bs := by
        rcases List.mem_cons.mp ha with h | h
        · exact absurd h.symm hab
        · exact h
      have hrec := ih (List.nodup_cons.mp hn).2 ha'
      simp only [List.filter_cons]
      rw [if_pos (by simp [hab])]
      simp only [List.length_cons]
      omega

theorem missing_insert {meta : Metadata} {added : List Nat} {id : Nat}
    (hid : id ∈ meta.nodes.map ResolveNode.id) (hnot : id ∉ added) :
    (missingIds meta (id :: added)).length + 1 = (missingIds meta added).length := by
  have hfe : missingIds meta (id :: added) =
      (missingIds meta added).filter fun i => decide (i ≠ id) := by
    unfold missingIds
    rw [List.filter_filter]
    apply List.filter_congr
    intro i _
    by_cases h1 : i = id <;> by_cases h2 : i ∈ added <;>
      simp [h1, h2, List.mem_cons]
  have hnodup : (missingIds meta added).Nodup :=
    (List.nodup_dedup _).filter _
  have hmem : id ∈ missingIds meta added := by
    unfold missingIds
    rw [List.mem_filter]
    exact ⟨List.mem_dedup.mpr hid, by simpa using hnot⟩
  rw [hfe]
  exact filter_ne_length hnodup hmem

theorem resolveLoop_sound (meta : Metadata) (rootIds : List Nat)
    (hwf : WfMeta meta rootIds) :
    ∀ (fuel : Nat) (toCheck added : List Nat) (result : List Package),
      loopMeasure meta toCheck added < fuel →
      (∀ id ∈ toCheck, ReachableN meta rootIds id) →
      (∀ id ∈ added, ReachableN meta rootIds id) →
      result.map Package.id = added →
      added.Nodup →
      (∀ id ∈ added, ∀ deps, resolveById meta.nodes id = some deps →
        ∀ t ∈ normalTargets deps, t ∈ added ∨ t ∈ toCheck) →
      (∀ r ∈ rootIds, r ∈ added ∨ r ∈ toCheck) →
      (∀ p ∈ result, packagesById meta.packages p.id = some p) →
      ∃ l, resolveLoop meta fuel toCheck added result = some l ∧
        (l.map Package.id).Nodup ∧
        (∀ p, p ∈ l ↔ ∃ id, ReachableN meta rootIds id ∧
          packagesById meta.packages id = some p) := by
  intro fuel
  induction fuel with
  | zero =>
    intro toCheck added result hμ
    exact absurd hμ (Nat.not_lt_zero _)
  | succ fuel ih =>
    intro toCheck added result hμ inv1 inv2 inv3 inv4 inv5 inv6 inv7
    cases toCheck with
    | nil =>
      refine ⟨result.reverse, rfl, ?_, ?_⟩
      · rw [List.map_reverse]
        exact List.nodup_reverse.mpr (inv3 ▸ inv4)
      · intro p
        constructor
        · intro hp
          have hp' : p ∈ result := List.mem_reverse.mp hp
          have hid : p.id ∈ added := by
            rw [← inv3]
            exact List.mem_map_of_mem _ hp'
          exact ⟨p.id, inv2 _ hid, inv7 p hp'⟩
        · rintro ⟨id, hr, hlook⟩
          have hclosed : ∀ j, ReachableN meta rootIds j → j ∈ added := by
            intro j hj
            induction hj with
            | root h =>
              rcases inv6 _ h with h2 | h2
              · exact h2
              · cases h2
            | step _ hres ht ihp =>
              rcases inv5 _ ihp _ hres _ ht with h2 | h2
              · exact h2
              · cases h2
          have hid : id ∈ added := hclosed id hr
          rw [← inv3] at hid
          obtain ⟨q, hq, hqid⟩ := List.mem_map.mp hid
          have hlq : packagesById meta.packages id = some q := by
            rw [← hqid]
            exact inv7 q hq
          have hqp : q = p := Option.some.inj (hlq.symm.trans hlook)
          exact List.mem_reverse.mpr (hqp ▸ hq)
    | cons id rest =>
      by_cases hmem : id ∈ added
      · have hstep : resolveLoop meta (fuel + 1) (id :: rest) added result =
            resolveLoop meta fuel rest added result := by
          simp [resolveLoop, hmem]
        rw [hstep]
        apply ih rest added result ?_ (fun i hi => inv1 i (List.mem_cons_of_mem _ hi))
          inv2 inv3 inv4 ?_ ?_ inv7
        · unfold loopMeasure at hμ ⊢
          simp only [List.length_cons] at hμ
          omega
        · intro i hi deps hdeps t ht
          rcases inv5 i hi deps hdeps t ht with h2 | h2
          · exact Or.inl h2
          · rcases List.mem_cons.mp h2 with rfl | h3
            · exact Or.inl hmem
            · exact Or.inr h3
        · intro r hroot
          rcases inv6 r hroot with h2 | h2
          · exact Or.inl h2
          · rcases List.mem_cons.mp h2 with rfl | h3
            · exact Or.inl hmem
            · exact Or.inr h3
      · have hr : ReachableN meta rootIds id := inv1 id (List.mem_cons_self _ _)
        obtain ⟨hps, hrs⟩ := reachable_resolvable hwf hr
        obtain ⟨pkg, hpkg⟩ := Option.isSome_iff_exists.mp hps
        obtain ⟨deps, hdeps⟩ := Option.isSome_iff_exists.mp hrs
        have hstep : resolveLoop meta (fuel + 1) (id :: rest) added result =
            resolveLoop meta fuel (normalTargets deps ++ rest) (id :: added)
              (pkg :: result) := by
          simp [resolveLoop, hmem, hpkg, hdeps]
        rw [hstep]
        have hid_node : id ∈ meta.nodes.map ResolveNode.id := by
          obtain ⟨n, hn, _, hnid⟩ := resolveById_node hdeps
          exact List.mem_map.mpr ⟨n, hn, hnid⟩
        apply ih _ _ _ ?_ ?_ ?_ ?_ ?_ ?_ ?_ ?_
        · have hins := missing_insert hid_node hmem
          have hnt := normalTargets_le_totalDeps hdeps
          unfold loopMeasure at hμ ⊢
          rw [List.length_append]
          have hexp : (totalDeps meta + 1) * (missingIds meta added).length =
              (totalDeps meta + 1) * (missingIds meta (id :: added)).length +
                (totalDeps meta + 1) := by
            rw [← hins]
            ring
          rw [hexp] at hμ
          simp only [List.length_cons] at hμ
          omega
        · intro t ht
          rcases List.mem_append.mp ht with h2 | h2
          · exact ReachableN.step hr hdeps h2
          · exact inv1 t (List.mem_cons_of_mem _ h2)
        · intro t ht
          rcases List.mem_cons.mp ht with rfl | h2
          · exact hr
          · exact inv2 t h2
        · rw [List.map_cons, inv3, packagesById_id hpkg]
        · exact List.nodup_cons.mpr ⟨hmem, inv4⟩
        · intro i hi deps' hdeps' t ht
          rcases List.mem_cons.mp hi with rfl | h2
          · have hdd : deps' = deps := by
              rw [hdeps] at hdeps'
              exact (Option.some.inj hdeps').symm
            subst hdd
            exact Or.inr (List.mem_append_left _ ht)
          · rcases inv5 i h2 deps' hdeps' t ht with h3 | h3
            · exact Or.inl (List.mem_cons_of_mem _ h3)
            · rcases List.mem_cons.mp h3 with rfl | h4
              · exact Or.inl (List.mem_cons_self _ _)
              · exact Or.inr (List.mem_append_right _ h4)
        · intro r hroot
          rcases inv6 r hroot with h2 | h2
          · exact Or.inl (List.mem_cons_of_mem _ h2)
          · rcases List.mem_cons.mp h2 with rfl | h3
            · exact Or.inl (List.mem_cons_self _ _)
            · exact Or.inr (List.mem_append_right _ h3)
        · intro p hp
          rcases List.mem_cons.mp hp with rfl | h2
          · exact packagesById_self hpkg
          · exact inv7 p h2

/-- C6: `resolve_packages` succeeds on well-formed metadata and returns
exactly the set of packages reachable from the roots over edges with at
least one `Normal` kind, each package exactly once, roots included;
diamonds and cycles are absorbed by the visited-id set (captured here by
termination with the stated fuel and by the no-duplicates conclusion), a
package reachable only over `Development` edges is excluded and one
reachable over an edge carrying both `Development` and `Normal` kinds is
included, both being instances of the reachability equivalence. -/
theorem c6_resolve_packages (meta : Metadata) (roots : List Package)
    (hwf : WfMeta meta (roots.map Package.id)) :
    ∃ l, resolve_packages meta roots = some l ∧
      (l.map Package.id).Nodup ∧
      (∀ p, p ∈ l ↔ ∃ id, ReachableN meta (roots.map Package.id) id ∧
        packagesById meta.packages id = some p) ∧
      (∀ r ∈ roots, ∃ p ∈ l, p.id = r.id) := by
  have hμ : loopMeasure meta (roots.map Package.id) [] <
      resolveFuel meta (roots.map Package.id) := by
    unfold loopMeasure resolveFuel
    have h1 : (missingIds meta []).length ≤ meta.nodes.length := by
      have h2 : (missingIds meta []).length ≤
          ((meta.nodes.map ResolveNode.id).dedup).length := by
        unfold missingIds
        exact List.length_filter_le _ _
      have h3 := (List.dedup_sublist (meta.nodes.map ResolveNode.id)).length_le
      rw [List.length_map] at h3
      omega
    have h4 : (totalDeps meta + 1) * (missingIds meta []).length ≤
        (totalDeps meta + 1) * meta.nodes.length :=
      Nat.mul_le_mul_left _ h1
    have h5 : (totalDeps meta + 1) * (meta.nodes.length + 1) =
        (totalDeps meta + 1) * meta.nodes.length + (totalDeps meta + 1) := by
      ring
    rw [h5]
    omega
  obtain ⟨l, hl, hnd, hiff⟩ := resolveLoop_sound meta (roots.map Package.id) hwf
    (resolveFuel meta (roots.map Package.id)) (roots.map Package.id) [] []
    hμ (fun id h => ReachableN.root h)
    (fun id h => absurd h (List.not_mem_nil id))
    rfl List.nodup_nil
    (fun id h => absurd h (List.not_mem_nil id))
    (fun r h => Or.inr h)
    (fun p h => absurd h (List.not_mem_nil p))
  refine ⟨l, hl, hnd, hiff, ?_⟩
  intro r hr
  have hroot : ReachableN meta (roots.map Package.id) r.id :=
    ReachableN.root (List.mem_map_of_mem _ hr)
  have hsome := (hwf.1 r.id (List.mem_map_of_mem _ hr)).1
  obtain ⟨p, hp⟩ := Option.isSome_iff_exists.mp hsome
  exact ⟨p, (hiff p).mpr ⟨r.id, hroot, hp⟩, packagesById_id hp⟩

/-- A demonstration graph for the resolver: package 1 is a `Normal`
dependency of the root, package 2 hangs off a `Development`-only edge,
package 3 is reachable over an edge carrying both `Development` and
`Normal`, and the edge from 1 back to 0 closes a cycle. -/
def demoMeta : Metadata :=
  { packages := [⟨0⟩, ⟨1⟩, ⟨2⟩, ⟨3⟩],
    nodes := [⟨0, [⟨1, [.Normal]⟩, ⟨2, [.Development]⟩,
                   ⟨3, [.Development, .Normal]⟩]⟩,
              ⟨1, [⟨0, [.Normal]⟩]⟩,
              ⟨2, []⟩,
              ⟨3, []⟩] }

/-- The root set of the demonstration graph. -/
def demoRoots : List Package := [⟨0⟩]

theorem c6_resolve_packages_witness :
    WfMeta demoMeta (demoRoots.map Package.id) ∧
    (∃ l, resolve_packages demoMeta demoRoots = some l ∧
      (l.map Package.id).Nodup ∧
      (∀ p, p ∈ l ↔ ∃ id, ReachableN demoMeta (demoRoots.map Package.id) id ∧
        packagesById demoMeta.packages id = some p) ∧
      (∀ r ∈ demoRoots, ∃ p ∈ l, p.id = r.id)) :=
  ⟨by decide, c6_resolve_packages demoMeta demoRoots (by decide)⟩

end Lichking
